import Mathlib

/-!
# Verification of the MPQ archive carver (`src/priv/sandbox/extract_mpqs.py`)

This file embeds the carving loop of `extract_mpqs` as executable Lean
definitions and proves the specification's claims about it.

Embedding notes:
* A host blob is a `List Nat` of byte values; the carver never needs the
  `< 256` bound, so it is not imposed.
* `bytes.find(sig, pos)` is `findSig`: the least offset `m ≥ pos` at which
  the 4-byte signature `"MPQ\x1a"` (`77, 80, 81, 26`) occurs.
* `struct.unpack_from("<I", data, off)` succeeds exactly when
  `off + 4 ≤ data.length` and yields the little-endian 32-bit value `le32`;
  when it fails Python raises `struct.error`.  The loop result therefore
  carries a `Bool` crash flag: `(archives, idx, crashed)` where `archives`
  is the list of `(start, length, index)` triples already written out when
  the loop ends (Python writes each file as it is accepted, so archives
  emitted before a crash remain emitted) and `idx` is the final counter.
* The `while True` loop is `carveAux`, structurally recursive on a fuel
  argument.  Each iteration moves the cursor from `pos` to `m + 4 ≥ pos + 4`,
  so `data.length + 1` fuel is always enough; `carveAux_fuel_irrel` below
  proves the result is fuel-independent from that point on.
-/

/-- The 4-byte signature `b"MPQ\x1a"`. -/
def sigBytes : List Nat := [77, 80, 81, 26]

/-- `data[m:m+4] == b"MPQ\x1a"`: a signature occurrence at offset `m`.
The bound `m + 4 ≤ data.length` is part of the occurrence, exactly as in
Python slice comparison. -/
def isSigAt (data : List Nat) (m : Nat) : Bool :=
  decide (m + 4 ≤ data.length) && (data.getD m 0 == 77) && (data.getD (m+1) 0 == 80)
    && (data.getD (m+2) 0 == 81) && (data.getD (m+3) 0 == 26)

/-- `data.find(sig, pos)`: the first occurrence of the signature at an offset
`≥ pos`, or `none` (Python's `-1`). -/
def findSig (data : List Nat) (pos : Nat) : Option Nat :=
  (List.range data.length).find? (fun m => decide (pos ≤ m) && isSigAt data m)

/-- The little-endian unsigned 32-bit value at offset `off`
(`struct.unpack_from("<I", data, off)[0]`; the caller must separately ensure
`off + 4 ≤ data.length`, otherwise Python raises `struct.error`). -/
def le32 (data : List Nat) (off : Nat) : Nat :=
  data.getD off 0 + 256 * data.getD (off+1) 0 + 65536 * data.getD (off+2) 0
    + 16777216 * data.getD (off+3) 0

/-- One run of the `while True` loop of `extract_mpqs`, from cursor `pos`
with archive counter `idx`.  Returns `(archives, finalIdx, crashed)`:
the `(start, length, index)` triples written out, the final counter, and
whether the loop ended by an uncaught `struct.error` (an unpack reaching
past the end of the blob) rather than by `data.find` returning `-1`. -/
def carveAux (data : List Nat) : Nat → Nat → Nat → List (Nat × Nat × Nat) × Nat × Bool
  | 0, _, idx => ([], idx, false)
  | fuel+1, pos, idx =>
    match findSig data pos with
    | none => ([], idx, false)
    | some m =>
      if m + 12 ≤ data.length then
        if le32 data (m+4) = 32 ∧ 1000 < le32 data (m+8) then
          let r := carveAux data fuel (m+4) (idx+1)
          ((m, min (le32 data (m+8)) (data.length - m), idx) :: r.1, r.2)
        else
          carveAux data fuel (m+4) idx
      else ([], idx, true)

/-- The carving core of `extract_mpqs(installer_path, output_dir)`: the scan
over the blob bytes, started at cursor `0` with counter `0`. -/
def extract_mpqs (data : List Nat) : List (Nat × Nat × Nat) × Nat × Bool :=
  carveAux data (data.length + 1) 0 0

/-- The emitted archives, as `(start, length, index)` triples in emission
order (each triple is one output file `d2demo_{index}.mpq` holding
`data[start : start + length]`). -/
def mpqArchives (data : List Nat) : List (Nat × Nat × Nat) :=
  (extract_mpqs data).1

/-- The final value of `idx`, reported as the total count. -/
def mpqCount (data : List Nat) : Nat :=
  (extract_mpqs data).2.1

/-- Whether the scan dies with an uncaught `struct.error`. -/
def mpqCrashed (data : List Nat) : Bool :=
  (extract_mpqs data).2.2

/-- A 20-byte blob: signature at 0, `header_size = 32`,
`archive_size = 2000` (little-endian `208, 7, 0, 0`), then filler.  The
declared size overruns the blob, so the emission is clamped to 20 bytes. -/
def blob20 : List Nat :=
  [77, 80, 81, 26, 32, 0, 0, 0, 208, 7, 0, 0, 0, 0, 0, 0, 0, 0, 0, 0]

/-- A 24-byte blob with two overlapping valid candidates: at offset 0
(`header_size = 32`, `archive_size = 2000`, clamped to 24) and at offset 12
(`header_size = 32`, `archive_size = 1500`, little-endian `220, 5, 0, 0`,
clamped to 12).  The second lies inside the first's declared extent; the
4-byte cursor step finds both. -/
def blobNested : List Nat :=
  [77, 80, 81, 26, 32, 0, 0, 0, 208, 7, 0, 0,
   77, 80, 81, 26, 32, 0, 0, 0, 220, 5, 0, 0]

example : extract_mpqs blob20 = ([(0, 20, 0)], 1, false) := by decide

example : extract_mpqs [77, 80, 81, 26] = ([], 0, true) := by decide

example : extract_mpqs [] = ([], 0, false) := by decide

example : extract_mpqs [1, 2, 77, 80] = ([], 0, false) := by decide

example : extract_mpqs blobNested = ([(0, 24, 0), (12, 12, 1)], 2, false) := by decide

/-! ## Lemmas -/

/-! ### Basic facts about `isSigAt` and `findSig` -/

lemma isSigAt_iff {data : List Nat} {m : Nat} :
    isSigAt data m = true ↔
      m + 4 ≤ data.length ∧ data.getD m 0 = 77 ∧ data.getD (m+1) 0 = 80
        ∧ data.getD (m+2) 0 = 81 ∧ data.getD (m+3) 0 = 26 := by
  simp [isSigAt, and_assoc]

lemma isSigAt_lt {data : List Nat} {m : Nat} (h : isSigAt data m = true) :
    m < data.length := by
  have := (isSigAt_iff.mp h).1
  omega

/-- Two distinct signature occurrences are at least 4 bytes apart: the
signature cannot overlap itself. -/
lemma sig_no_overlap {data : List Nat} {a b : Nat}
    (ha : isSigAt data a = true) (hb : isSigAt data b = true) (hab : a < b) :
    a + 4 ≤ b := by
  by_contra hcon
  obtain ⟨-, ha0, ha1, ha2, ha3⟩ := isSigAt_iff.mp ha
  obtain ⟨-, hb0, -, -, -⟩ := isSigAt_iff.mp hb
  have hcase : b = a + 1 ∨ b = a + 2 ∨ b = a + 3 := by omega
  rcases hcase with h | h | h <;> rw [h] at hb0 <;> omega

lemma findSig_some {data : List Nat} {pos m : Nat} (h : findSig data pos = some m) :
    pos ≤ m ∧ isSigAt data m = true := by
  have := List.find?_some h
  simpa using this

lemma findSig_none {data : List Nat} {pos : Nat} (h : findSig data pos = none)
    {m : Nat} (hm : pos ≤ m) : isSigAt data m = false := by
  by_contra hc
  rw [Bool.not_eq_false] at hc
  have hmem : m ∈ List.range data.length := List.mem_range.mpr (isSigAt_lt hc)
  have := List.find?_eq_none.mp h m hmem
  simp [hm, hc] at this

/-- `data.find` returns the *first* occurrence at or after `pos`. -/
lemma findSig_min {data : List Nat} {pos m : Nat} (h : findSig data pos = some m) :
    ∀ k, pos ≤ k → isSigAt data k = true → m ≤ k := by
  intro k hposk hk
  by_contra hcon
  push_neg at hcon
  obtain ⟨hp, as, bs, heq, hall⟩ := List.find?_eq_some.mp h
  simp only [Bool.and_eq_true, decide_eq_true_eq] at hp
  have hmlt : m < data.length := isSigAt_lt hp.2
  have hlen : data.length = as.length + (bs.length + 1) := by
    have := congrArg List.length heq
    simpa using this
  have hm_eq : m = as.length := by
    have h1 : (List.range data.length)[as.length]? = some as.length :=
      List.getElem?_range (by omega)
    have h2 : (as ++ m :: bs)[as.length]? = some m := by
      rw [List.getElem?_append_right (le_refl _)]
      simp
    rw [heq, h2] at h1
    exact Option.some_inj.mp h1
  have hkas : k ∈ as := by
    have h1 : (List.range data.length)[k]? = some k :=
      List.getElem?_range (by omega)
    have h2 : (as ++ m :: bs)[k]? = as[k]? := by
      exact List.getElem?_append_left (by omega)
    rw [heq, h2] at h1
    obtain ⟨hlt, hget⟩ := List.getElem?_eq_some.mp h1
    exact hget ▸ List.getElem_mem hlt
  have := hall k hkas
  simp [hposk, hk] at this

/-! ## Structural lemmas about the carving loop -/

/-- Once the cursor is at or past the end of the blob, the loop stops
cleanly at once, whatever fuel remains. -/
lemma carveAux_of_len_le (data : List Nat) :
    ∀ fuel pos idx, data.length ≤ pos → carveAux data fuel pos idx = ([], idx, false) := by
  intro fuel pos idx hle
  cases fuel with
  | zero => rfl
  | succ fuel =>
    have hf : findSig data pos = none := by
      cases hf : findSig data pos with
      | none => rfl
      | some m =>
        obtain ⟨hpos, hsig⟩ := findSig_some hf
        have := isSigAt_lt hsig
        omega
    simp [carveAux, hf]

/-- Every emitted start offset is at or after the cursor the loop was
started from. -/
lemma carveAux_starts_ge (data : List Nat) :
    ∀ fuel pos idx, ∀ t ∈ (carveAux data fuel pos idx).1, pos ≤ t.1 := by
  intro fuel
  induction fuel with
  | zero => intro pos idx t ht; simp [carveAux] at ht
  | succ fuel ih =>
    intro pos idx t ht
    rw [carveAux] at ht
    cases hf : findSig data pos with
    | none => rw [hf] at ht; simp at ht
    | some m =>
      rw [hf] at ht
      dsimp only at ht
      obtain ⟨hpos, hsig⟩ := findSig_some hf
      by_cases h12 : m + 12 ≤ data.length
      · rw [if_pos h12] at ht
        by_cases hv : le32 data (m+4) = 32 ∧ 1000 < le32 data (m+8)
        · rw [if_pos hv] at ht
          simp only [List.mem_cons] at ht
          rcases ht with rfl | ht
          · exact hpos
          · have := ih (m+4) (idx+1) t ht
            omega
        · rw [if_neg hv] at ht
          have := ih (m+4) idx t ht
          omega
      · rw [if_neg h12] at ht
        simp at ht

/-- Full characterization of an emitted triple: its start is a signature
occurrence at or after the initial cursor, with at least 12 readable bytes,
a validated header, and the clamped length. -/
lemma carveAux_mem (data : List Nat) :
    ∀ fuel pos idx m l i, (m, l, i) ∈ (carveAux data fuel pos idx).1 →
      pos ≤ m ∧ isSigAt data m = true ∧ m + 12 ≤ data.length ∧
        le32 data (m+4) = 32 ∧ 1000 < le32 data (m+8) ∧
        l = min (le32 data (m+8)) (data.length - m) := by
  intro fuel
  induction fuel with
  | zero => intro pos idx m l i h; simp [carveAux] at h
  | succ fuel ih =>
    intro pos idx m l i h
    rw [carveAux] at h
    cases hf : findSig data pos with
    | none => rw [hf] at h; simp at h
    | some m0 =>
      rw [hf] at h
      dsimp only at h
      obtain ⟨hpos0, hsig0⟩ := findSig_some hf
      by_cases h12 : m0 + 12 ≤ data.length
      · rw [if_pos h12] at h
        by_cases hv : le32 data (m0+4) = 32 ∧ 1000 < le32 data (m0+8)
        · rw [if_pos hv] at h
          simp only [List.mem_cons] at h
          rcases h with heq | h
          · simp only [Prod.mk.injEq] at heq
            obtain ⟨rfl, rfl, rfl⟩ := heq
            exact ⟨hpos0, hsig0, h12, hv.1, hv.2, rfl⟩
          · have hrec := ih (m0+4) (idx+1) m l i h
            exact ⟨by omega, hrec.2⟩
        · rw [if_neg hv] at h
          have hrec := ih (m0+4) idx m l i h
          exact ⟨by omega, hrec.2⟩
      · rw [if_neg h12] at h
        simp at h

/-- Emitted start offsets are pairwise strictly increasing, in emission
order. -/
lemma carveAux_pairwise (data : List Nat) :
    ∀ fuel pos idx, List.Pairwise (fun s t => s.1 < t.1) (carveAux data fuel pos idx).1 := by
  intro fuel
  induction fuel with
  | zero => intro pos idx; simp [carveAux]
  | succ fuel ih =>
    intro pos idx
    rw [carveAux]
    cases hf : findSig data pos with
    | none => simp
    | some m =>
      dsimp only
      by_cases h12 : m + 12 ≤ data.length
      · rw [if_pos h12]
        by_cases hv : le32 data (m+4) = 32 ∧ 1000 < le32 data (m+8)
        · rw [if_pos hv]
          refine List.pairwise_cons.mpr ⟨?_, ih (m+4) (idx+1)⟩
          intro t ht
          have := carveAux_starts_ge data fuel (m+4) (idx+1) t ht
          omega
        · rw [if_neg hv]
          exact ih (m+4) idx
      · rw [if_neg h12]
        simp

/-- The indices of the emitted archives count up contiguously from the
initial counter. -/
lemma carveAux_indices (data : List Nat) :
    ∀ fuel pos idx, (carveAux data fuel pos idx).1.map (fun t => t.2.2) =
      List.range' idx (carveAux data fuel pos idx).1.length := by
  intro fuel
  induction fuel with
  | zero => intro pos idx; simp [carveAux]
  | succ fuel ih =>
    intro pos idx
    rw [carveAux]
    cases hf : findSig data pos with
    | none => simp
    | some m =>
      dsimp only
      by_cases h12 : m + 12 ≤ data.length
      · rw [if_pos h12]
        by_cases hv : le32 data (m+4) = 32 ∧ 1000 < le32 data (m+8)
        · rw [if_pos hv]
          simp only [List.map_cons, List.length_cons, List.range'_succ]
          exact congrArg _ (ih (m+4) (idx+1))
        · rw [if_neg hv]
          exact ih (m+4) idx
      · rw [if_neg h12]
        simp

/-- The final counter is the initial counter plus the number of archives
emitted. -/
lemma carveAux_count (data : List Nat) :
    ∀ fuel pos idx, (carveAux data fuel pos idx).2.1 =
      idx + (carveAux data fuel pos idx).1.length := by
  intro fuel
  induction fuel with
  | zero => intro pos idx; simp [carveAux]
  | succ fuel ih =>
    intro pos idx
    rw [carveAux]
    cases hf : findSig data pos with
    | none => simp
    | some m =>
      dsimp only
      by_cases h12 : m + 12 ≤ data.length
      · rw [if_pos h12]
        by_cases hv : le32 data (m+4) = 32 ∧ 1000 < le32 data (m+8)
        · rw [if_pos hv]
          have := ih (m+4) (idx+1)
          simp only [List.length_cons]
          omega
        · rw [if_neg hv]
          have := ih (m+4) idx
          omega
      · rw [if_neg h12]
        simp

/-- How often a signature occurrence `m` (readable in full) appears among
the emitted start offsets: once when its header validates, never
otherwise.  The fuel hypothesis holds for the fuel `extract_mpqs` uses. -/
lemma carveAux_countP (data : List Nat) :
    ∀ fuel pos idx m, data.length ≤ pos + 4 * fuel → pos ≤ m →
      isSigAt data m = true → m + 12 ≤ data.length →
      (carveAux data fuel pos idx).1.countP (fun t => t.1 == m) =
        if le32 data (m+4) = 32 ∧ 1000 < le32 data (m+8) then 1 else 0 := by
  intro fuel
  induction fuel with
  | zero =>
    intro pos idx m hfuel hpm hsig h12
    exact absurd h12 (by omega)
  | succ fuel ih =>
    intro pos idx m hfuel hpm hsig h12
    rw [carveAux]
    cases hf : findSig data pos with
    | none =>
      have h := findSig_none hf hpm
      rw [hsig] at h
      simp at h
    | some m0 =>
      dsimp only
      obtain ⟨hpos0, hsig0⟩ := findSig_some hf
      have hm0le : m0 ≤ m := findSig_min hf m hpm hsig
      have h12' : m0 + 12 ≤ data.length := by omega
      rw [if_pos h12']
      by_cases heq : m0 = m
      · subst heq
        by_cases hv : le32 data (m0+4) = 32 ∧ 1000 < le32 data (m0+8)
        · rw [if_pos hv, if_pos hv]
          dsimp only
          rw [List.countP_cons_of_pos _ _ (by simp)]
          have hzero : (carveAux data fuel (m0+4) (idx+1)).1.countP
              (fun t => t.1 == m0) = 0 := by
            rw [List.countP_eq_zero]
            intro t ht
            have := carveAux_starts_ge data fuel (m0+4) (idx+1) t ht
            simp only [beq_iff_eq]
            omega
          rw [hzero]
        · rw [if_neg hv, if_neg hv]
          rw [List.countP_eq_zero]
          intro t ht
          have := carveAux_starts_ge data fuel (m0+4) idx t ht
          simp only [beq_iff_eq]
          omega
      · have hlt : m0 < m := lt_of_le_of_ne hm0le heq
        have hsep : m0 + 4 ≤ m := sig_no_overlap hsig0 hsig hlt
        have hfuel' : data.length ≤ (m0+4) + 4 * fuel := by omega
        by_cases hv : le32 data (m0+4) = 32 ∧ 1000 < le32 data (m0+8)
        · rw [if_pos hv]
          dsimp only
          rw [List.countP_cons_of_neg _ _ (by simpa using heq)]
          exact ih (m0+4) (idx+1) m hfuel' hsep hsig h12
        · rw [if_neg hv]
          exact ih (m0+4) idx m hfuel' hsep hsig h12

/-- The loop's result does not depend on the fuel, once the fuel dominates
the number of remaining cursor positions: the loop has terminated by then. -/
lemma carveAux_fuel_irrel (data : List Nat) :
    ∀ fuel fuel' pos idx, data.length ≤ pos + 4 * fuel → data.length ≤ pos + 4 * fuel' →
      carveAux data fuel pos idx = carveAux data fuel' pos idx := by
  intro fuel
  induction fuel with
  | zero =>
    intro fuel' pos idx h h'
    rw [carveAux_of_len_le data 0 pos idx (by omega),
      carveAux_of_len_le data fuel' pos idx (by omega)]
  | succ fuel ih =>
    intro fuel' pos idx h h'
    cases fuel' with
    | zero =>
      rw [carveAux_of_len_le data _ pos idx (by omega),
        carveAux_of_len_le data 0 pos idx (by omega)]
    | succ fuel' =>
      rw [carveAux, carveAux]
      cases hf : findSig data pos with
      | none => rfl
      | some m =>
        dsimp only
        obtain ⟨hpos, hsig⟩ := findSig_some hf
        have h1 : data.length ≤ (m+4) + 4 * fuel := by omega
        have h1' : data.length ≤ (m+4) + 4 * fuel' := by omega
        by_cases h12 : m + 12 ≤ data.length
        · rw [if_pos h12, if_pos h12]
          by_cases hv : le32 data (m+4) = 32 ∧ 1000 < le32 data (m+8)
          · rw [if_pos hv, if_pos hv]
            rw [ih fuel' (m+4) (idx+1) h1 h1']
          · rw [if_neg hv, if_neg hv]
            exact ih fuel' (m+4) idx h1 h1'
        · rw [if_neg h12, if_neg h12]

/-- The `(start, length)` pairs emitted do not depend on the archive
counter the loop starts from (the counter only names output files). -/
lemma carveAux_pairs_idx (data : List Nat) :
    ∀ fuel pos idx idx', (carveAux data fuel pos idx).1.map (fun t => (t.1, t.2.1)) =
      (carveAux data fuel pos idx').1.map (fun t => (t.1, t.2.1)) := by
  intro fuel
  induction fuel with
  | zero => intro pos idx idx'; rfl
  | succ fuel ih =>
    intro pos idx idx'
    rw [carveAux, carveAux]
    cases hf : findSig data pos with
    | none => rfl
    | some m =>
      dsimp only
      by_cases h12 : m + 12 ≤ data.length
      · rw [if_pos h12, if_pos h12]
        by_cases hv : le32 data (m+4) = 32 ∧ 1000 < le32 data (m+8)
        · rw [if_pos hv, if_pos hv]
          simp only [List.map_cons]
          exact congrArg _ (ih (m+4) (idx+1) (idx'+1))
        · rw [if_neg hv, if_neg hv]
          exact ih (m+4) idx idx'
      · rw [if_neg h12, if_neg h12]

lemma drop_eq_getD_cons {data : List Nat} {m : Nat} (h : m < data.length) :
    data.drop m = data.getD m 0 :: data.drop (m+1) := by
  rw [List.drop_eq_getElem_cons h]
  congr 1
  rw [List.getD_eq_getElem?_getD, List.getElem?_eq_getElem h, Option.getD_some]

/-- The four blob bytes at a signature occurrence are the signature. -/
lemma drop_take_sig {data : List Nat} {m : Nat} (h : isSigAt data m = true) :
    (data.drop m).take 4 = sigBytes := by
  obtain ⟨hlen, h0, h1, h2, h3⟩ := isSigAt_iff.mp h
  rw [drop_eq_getD_cons (by omega), drop_eq_getD_cons (by omega),
    drop_eq_getD_cons (by omega), drop_eq_getD_cons (by omega), h0, h1, h2, h3]
  simp [sigBytes]

/-! ## The claims -/

/-- C1: the spec says a signature match with fewer than 12 bytes remaining
is treated as no match, with no header parse, no error, and the scan
continuing.  The code has no such guard: `struct.unpack_from` reads past
the end of the blob and raises `struct.error`.  On the 4-byte blob that is
exactly the signature, the scan dies (crash flag `true`) instead of
finishing cleanly — the code contradicts the spec's intent that no
candidate is fatal to the scan. -/
theorem mpq_truncated_sig_crashes : extract_mpqs [77, 80, 81, 26] = ([], 0, true) := by
  decide

/-- C2: a signature occurrence `m` with at least 12 readable bytes is
emitted exactly once when `header_size = 32` and `archive_size > 1000`,
and never emitted when either condition fails (stated as the number of
emitted triples whose start is `m`). -/
theorem mpq_emission_iff (data : List Nat) (m : Nat)
    (hsig : isSigAt data m = true) (h12 : m + 12 ≤ data.length) :
    (mpqArchives data).countP (fun t => t.1 == m) =
      if le32 data (m+4) = 32 ∧ 1000 < le32 data (m+8) then 1 else 0 := by
  unfold mpqArchives extract_mpqs
  exact carveAux_countP data (data.length + 1) 0 0 m (by omega) (Nat.zero_le m) hsig h12

theorem mpq_emission_iff_witness :
    (mpqArchives blob20).countP (fun t => t.1 == 0) =
      if le32 blob20 (0+4) = 32 ∧ 1000 < le32 blob20 (0+8) then 1 else 0 :=
  mpq_emission_iff blob20 0 (by decide) (by decide)

/-- C3: an accepted candidate whose declared `archive_size` exceeds the
bytes remaining from its start is clamped to exactly the remaining bytes;
otherwise the emitted length is the declared `archive_size` itself. -/
theorem mpq_clamping (data : List Nat) (m l i : Nat)
    (h : (m, l, i) ∈ mpqArchives data) :
    (data.length - m < le32 data (m+8) → l = data.length - m) ∧
    (le32 data (m+8) ≤ data.length - m → l = le32 data (m+8)) := by
  obtain ⟨-, -, -, -, -, hl⟩ := carveAux_mem data (data.length + 1) 0 0 m l i h
  refine ⟨fun hc => ?_, fun hc => ?_⟩ <;> rw [hl, Nat.min_def] <;> split <;> omega

theorem mpq_clamping_witness :
    (blob20.length - 0 < le32 blob20 (0+8) → 20 = blob20.length - 0) ∧
    (le32 blob20 (0+8) ≤ blob20.length - 0 → 20 = le32 blob20 (0+8)) :=
  mpq_clamping blob20 0 20 0 (by decide)

/-- C4: whatever a match's validation outcome, the scan resumes at exactly
`m + 4`: on an accepted match the result is the emitted triple followed by
the scan restarted at cursor `m + 4` (not `m + header_size` or
`m + archive_size`), and on a rejected match it is exactly the scan
restarted at cursor `m + 4`. -/
theorem mpq_cursor_step (data : List Nat) (fuel pos idx m : Nat)
    (hf : findSig data pos = some m) (h12 : m + 12 ≤ data.length) :
    (le32 data (m+4) = 32 ∧ 1000 < le32 data (m+8) →
      carveAux data (fuel+1) pos idx =
        ((m, min (le32 data (m+8)) (data.length - m), idx) ::
            (carveAux data fuel (m+4) (idx+1)).1,
          (carveAux data fuel (m+4) (idx+1)).2)) ∧
    (¬(le32 data (m+4) = 32 ∧ 1000 < le32 data (m+8)) →
      carveAux data (fuel+1) pos idx = carveAux data fuel (m+4) idx) := by
  constructor <;> intro hv <;> rw [carveAux, hf] <;> dsimp only
  · rw [if_pos h12, if_pos hv]
  · rw [if_pos h12, if_neg hv]

theorem mpq_cursor_step_witness :
    le32 blobNested (0+4) = 32 ∧ 1000 < le32 blobNested (0+8) ∧
    carveAux blobNested (24+1) 0 0 =
      ((0, min (le32 blobNested (0+8)) (blobNested.length - 0), 0) ::
          (carveAux blobNested 24 (0+4) (0+1)).1,
        (carveAux blobNested 24 (0+4) (0+1)).2) :=
  ⟨by decide, by decide,
    (mpq_cursor_step blobNested 24 0 0 0 (by decide) (by decide)).1 ⟨by decide, by decide⟩⟩

/-- C5: every emitted archive lies inside the blob: its start is a valid
offset, its extent ends at or before the end of the blob, and its length is
positive (starts are `Nat`s, so `0 ≤ start` holds by type). -/
theorem mpq_bounds (data : List Nat) (m l i : Nat)
    (h : (m, l, i) ∈ mpqArchives data) :
    m < data.length ∧ m + l ≤ data.length ∧ 0 < l := by
  obtain ⟨-, hsig, h12, -, hgt, hl⟩ := carveAux_mem data (data.length + 1) 0 0 m l i h
  have hm := isSigAt_lt hsig
  refine ⟨hm, ?_, ?_⟩ <;> rw [hl, Nat.min_def] <;> split <;> omega

theorem mpq_bounds_witness :
    0 < blob20.length ∧ 0 + 20 ≤ blob20.length ∧ 0 < 20 :=
  mpq_bounds blob20 0 20 0 (by decide)

/-- C6: emitted start offsets are strictly increasing in emission order,
and the emitted indices are `0, 1, 2, …` contiguously (the range of the
number of accepted archives), however many matches are rejected between
them. -/
theorem mpq_ordering (data : List Nat) :
    List.Pairwise (fun s t => s.1 < t.1) (mpqArchives data) ∧
    (mpqArchives data).map (fun t => t.2.2) = List.range (mpqArchives data).length := by
  refine ⟨carveAux_pairwise data (data.length + 1) 0 0, ?_⟩
  rw [List.range_eq_range']
  exact carveAux_indices data (data.length + 1) 0 0

/-- C7: a blob with no signature occurrence at all — including the empty
blob — produces no archives, no crash, and a reported count of 0. -/
theorem mpq_no_sig_empty (data : List Nat) (h : ∀ m, isSigAt data m = false) :
    extract_mpqs data = ([], 0, false) := by
  have hf : findSig data 0 = none := by
    cases hfs : findSig data 0 with
    | none => rfl
    | some m =>
      have hm := (findSig_some hfs).2
      rw [h m] at hm
      simp at hm
  unfold extract_mpqs
  rw [carveAux, hf]

theorem mpq_no_sig_empty_witness : extract_mpqs [] = ([], 0, false) :=
  mpq_no_sig_empty [] (fun m => by simp [isSigAt])

/-- C8: the scan terminates on every finite blob: `data.length + 1` loop
iterations always suffice (giving the loop any more fuel changes nothing),
because each iteration strictly advances the cursor — a match at `m ≥ pos`
moves the cursor to `m + 4 > pos`. -/
theorem mpq_terminates (data : List Nat) :
    (∀ extra, carveAux data (data.length + 1 + extra) 0 0 = extract_mpqs data) ∧
    (∀ pos m, findSig data pos = some m → pos < m + 4) := by
  constructor
  · intro extra
    unfold extract_mpqs
    exact carveAux_fuel_irrel data (data.length + 1 + extra) (data.length + 1) 0 0
      (by omega) (by omega)
  · intro pos m hf
    have := (findSig_some hf).1
    omega

theorem mpq_terminates_witness :
    carveAux blob20 (blob20.length + 1 + 4) 0 0 = extract_mpqs blob20 ∧
    (0:Nat) < 0 + 4 :=
  ⟨(mpq_terminates blob20).1 4, (mpq_terminates blob20).2 0 0 (by decide)⟩

/-- C9: carving is a pure function of the blob bytes.  The only loop state
that could leak between calls is the archive counter, and the emitted
`(start, length)` pairs are invariant under it: a scan started at any
cursor with any initial counter yields the same pair sequence, so carving
the same blob twice yields identical `(start, length)` sequences. -/
theorem mpq_deterministic (data : List Nat) (pos idx idx' : Nat) :
    (carveAux data (data.length + 1) pos idx).1.map (fun t => (t.1, t.2.1)) =
      (carveAux data (data.length + 1) pos idx').1.map (fun t => (t.1, t.2.1)) :=
  carveAux_pairs_idx data (data.length + 1) pos idx idx'

/-- C10: every emitted archive's content starts with the 4-byte signature:
the first four bytes of `data[start : start + length]` are `"MPQ\x1a"`. -/
theorem mpq_content_sig (data : List Nat) (m l i : Nat)
    (h : (m, l, i) ∈ mpqArchives data) :
    ((data.drop m).take l).take 4 = sigBytes := by
  obtain ⟨-, hsig, h12, -, hgt, hl⟩ := carveAux_mem data (data.length + 1) 0 0 m l i h
  have hl4 : 4 ≤ l := by rw [hl, Nat.min_def]; split <;> omega
  rw [List.take_take, Nat.min_eq_left hl4]
  exact drop_take_sig hsig

theorem mpq_content_sig_witness :
    ((blob20.drop 0).take 20).take 4 = sigBytes :=
  mpq_content_sig blob20 0 20 0 (by decide)
